import Mathlib

/-!
Verification of the text-editor core (rust-text-editor).

The development shallowly embeds `src/row.rs`, `src/document.rs` and the
buffer/cursor parts of `src/editor.rs`. Strings are modelled as `List Char`
(Unicode scalar values); byte positions are recovered through the UTF-8
encoded size of each scalar. Grapheme segmentation, which the source
delegates to the `unicode_segmentation` crate (extended grapheme clusters,
UAX #29), is modelled by a left-to-right scan over the character classes
CR, LF, Control, Extend (combining marks), RI (regional indicators) and
Other: rules GB3, GB4, GB5 and GB9 are captured by the pairwise relation
`noBreak`, and the non-local pairing rules GB12/GB13 for regional
indicators by the run-parity test inside `breakBetween`. The omitted rules
(GB6-GB8 Hangul, GB9a/GB9b, GB11 emoji ZWJ) are pairwise or look only
inside the cluster being built, so none of them can split an existing
cluster when text is inserted at a cluster boundary; the regional-indicator
rules, which can, are modelled. Fallible container operations
(`Vec::remove`, `Vec::insert`), which panic on an out-of-range index,
return `Option`, with `none` marking the panic.
-/

namespace TextEdit

/-- Character classes of the modelled grapheme-cluster break rules. -/
inductive GClass
  | cr
  | lf
  | control
  | extendMark
  | ri
  | other
deriving DecidableEq

/-- Combining-mark ranges (Unicode `Grapheme_Cluster_Break=Extend`, restricted
to the combining-diacritic blocks). -/
def isCombining (c : Char) : Bool :=
  (0x300 ≤ c.toNat && c.toNat ≤ 0x36F) ||
  (0x1AB0 ≤ c.toNat && c.toNat ≤ 0x1AFF) ||
  (0x1DC0 ≤ c.toNat && c.toNat ≤ 0x1DFF) ||
  (0x20D0 ≤ c.toNat && c.toNat ≤ 0x20FF) ||
  (0xFE20 ≤ c.toNat && c.toNat ≤ 0xFE2F)

/-- Class of a character for the break rules. -/
def classOf (c : Char) : GClass :=
  if c = '\r' then .cr
  else if c = '\n' then .lf
  else if c.toNat < 0x20 || c.toNat = 0x7F then .control
  else if isCombining c then .extendMark
  else if 0x1F1E6 ≤ c.toNat && c.toNat ≤ 0x1F1FF then .ri
  else .other

/-- `noBreak a b`: the cluster boundary between `a` and `b` is suppressed
(UAX #29 rules GB3, GB4, GB5, GB9 on the modelled classes). -/
def noBreak (a b : Char) : Bool :=
  (classOf a = .cr && classOf b = .lf) ||
  (!(classOf a = .cr || classOf a = .lf || classOf a = .control) &&
   !(classOf b = .cr || classOf b = .lf || classOf b = .control) &&
   classOf b = .extendMark)

/-- `breakBetween cur c`: does a cluster boundary fall between the cluster
`cur` built so far (in order, nonempty) and the next character `c`? Rules
GB3/GB4/GB5/GB9 need only the last character of `cur`; the
regional-indicator rules GB12/GB13 additionally need the parity of the run
of regional indicators ending `cur` (no break only after an odd run). -/
def breakBetween (cur : List Char) (c : Char) : Bool :=
  match cur.getLast? with
  | none => false
  | some a =>
    if classOf a = .cr ∧ classOf c = .lf then false
    else if classOf a = .cr ∨ classOf a = .lf ∨ classOf a = .control then true
    else if classOf c = .cr ∨ classOf c = .lf ∨ classOf c = .control then true
    else if classOf c = .extendMark then false
    else if classOf a = .ri ∧ classOf c = .ri then
      (cur.reverse.takeWhile (fun x => classOf x = .ri)).length % 2 == 0
    else true

/-- The scan: `cur` is the cluster being built (in order, nonempty). -/
def graphemesGo : List Char → List Char → List (List Char)
  | cur, [] => [cur]
  | cur, c :: rest =>
    if breakBetween cur c then cur :: graphemesGo [c] rest
    else graphemesGo (cur ++ [c]) rest

/-- Extended grapheme clusters of a character sequence: the model of
`UnicodeSegmentation::graphemes(true)`. -/
def graphemes : List Char → List (List Char)
  | [] => []
  | c :: rest => graphemesGo [c] rest

/-- UTF-8 encoded size of one scalar value (`char::len_utf8`). -/
def utf8Len (c : Char) : Nat :=
  if c.toNat < 0x80 then 1
  else if c.toNat < 0x800 then 2
  else if c.toNat < 0x10000 then 3
  else 4

/-- UTF-8 encoded size of a character sequence (`String::len`). -/
def utf8Length (s : List Char) : Nat :=
  (s.map utf8Len).sum

/-- `Row` (src/row.rs): the line content and the cached grapheme count.
The `highlighting` vector is omitted: `Row::highlight` is never invoked by
the program, so the vector is empty on every row, `highlighting.get(index)`
always yields `Type::None`, and the mid-line escape branch of `render`
never fires. -/
structure Row where
  string : List Char
  len : Nat
deriving DecidableEq

/-- `Row::from(&str)`: store the content and compute the cached length. -/
def rowFrom (s : List Char) : Row :=
  { string := s, len := (graphemes s).length }

/-- `Row::default()`: empty content, cached length 0. -/
def rowDefault : Row :=
  { string := [], len := 0 }

namespace Row

/-- `Row::insert` (src/row.rs lines 52-63). -/
def insert (r : Row) (x_position : Nat) (c : Char) : Row :=
  if x_position ≥ r.len then
    let s := r.string ++ [c]
    { string := s, len := (graphemes s).length }
  else
    let result := ((graphemes r.string).take x_position).flatten
    let split := ((graphemes r.string).drop x_position).flatten
    let s := result ++ [c] ++ split
    { string := s, len := (graphemes s).length }

/-- `Row::delete` (src/row.rs lines 80-90). -/
def delete (r : Row) (a : Nat) : Row :=
  if a ≥ r.len then r
  else
    let result := ((graphemes r.string).take a).flatten
    let split := ((graphemes r.string).drop (a + 1)).flatten
    let s := result ++ split
    { string := s, len := (graphemes s).length }

/-- `Row::append` (src/row.rs lines 64-67). -/
def append (r other : Row) : Row :=
  let s := r.string ++ other.string
  { string := s, len := (graphemes s).length }

/-- `Row::split` (src/row.rs lines 91-97): first component is the truncated
receiver, second the returned new row. -/
def split (r : Row) (a : Nat) : Row × Row :=
  let result := ((graphemes r.string).take a).flatten
  let new_row := ((graphemes r.string).drop a).flatten
  ({ string := result, len := (graphemes result).length }, rowFrom new_row)

/-- Byte index of the first occurrence of `q` in `s` (`String::find`);
UTF-8 self-synchronisation makes byte-level substring occurrence coincide
with scalar-level occurrence. -/
def strFindAux : List Char → List Char → Nat → Option Nat
  | s@([]), q, off => if q.isPrefixOf s then some off else none
  | s@(c :: rest), q, off =>
    if q.isPrefixOf s then some off else strFindAux rest q (off + utf8Len c)

/-- Start byte offsets of the clusters of a sequence (the first components
of `grapheme_indices(true)`). -/
def clusterOffsets : List (List Char) → Nat → List Nat
  | [], _ => []
  | g :: gs, off => off :: clusterOffsets gs (off + utf8Length g)

/-- `Row::find` (src/row.rs lines 68-78): byte search, then map the byte
index to the grapheme index whose cluster starts at that byte. -/
def find (r : Row) (query : List Char) : Option Nat :=
  match strFindAux r.string query 0 with
  | none => none
  | some matching_byte_index =>
    (clusterOffsets (graphemes r.string) 0).findIdx?
      (fun byte_index => byte_index = matching_byte_index)

/-- The ANSI reset-foreground escape emitted by
`termion::color::Fg(color::Reset)`. -/
def resetFgSeq : List Char :=
  [Char.ofNat 27, '[', '3', '9', 'm']

/-- Output of `render` for one cluster: a tab cluster becomes one space,
any other cluster contributes only its first scalar (`grapheme.chars().next()`);
an empty cluster (unreachable) contributes nothing. -/
def renderCluster (g : List Char) : List Char :=
  match g.head? with
  | none => []
  | some c => if g = [Char.ofNat 9] then [' '] else [c]

/-- `Row::render` (src/row.rs lines 27-51). `end` is clamped to the byte
length of the content, `start` to `end`; the loop then walks clusters
`skip start, take (end - start)`. The highlighting vector being empty, the
only escape emitted is the final reset. -/
def render (r : Row) (start endp : Nat) : List Char :=
  let e := min endp (utf8Length r.string)
  let s := min start e
  ((((graphemes r.string).drop s).take (e - s)).foldl
    (fun acc g => acc ++ renderCluster g) [])
  ++ resetFgSeq

end Row

/-- `Position` (src/editor.rs lines 47-51). -/
structure Position where
  x : Nat
  y : Nat
deriving DecidableEq

/-- `Document` (src/document.rs lines 13-18). -/
structure Document where
  rows : List Row
  file_name : Option (List Char)
  dirty : Bool
deriving DecidableEq

namespace Document

/-- `Document::len`. -/
def len (doc : Document) : Nat :=
  doc.rows.length

/-- `Document::row`. -/
def row (doc : Document) (index : Nat) : Option Row :=
  doc.rows[index]?

/-- `Document::is_empty`. -/
def is_empty (doc : Document) : Bool :=
  doc.rows.isEmpty

/-- `Document::insert_newline` (src/document.rs lines 71-83). -/
def insert_newline (doc : Document) (at_ : Position) : Document :=
  if at_.y > doc.len then doc
  else if at_.y = doc.len then { doc with rows := doc.rows ++ [rowDefault] }
  else
    let current_row := doc.rows.getD at_.y rowDefault
    let pair := current_row.split at_.x
    { doc with
      rows := ((doc.rows.set at_.y pair.1).insertIdx (at_.y + 1) pair.2) }

/-- `Document::insert` (src/document.rs lines 44-62): the guard precedes the
dirty marking; a newline dispatches to `insert_newline`. -/
def insert (doc : Document) (at_ : Position) (c : Char) : Document :=
  if at_.y > doc.len then doc
  else
    let doc := { doc with dirty := true }
    if c = '\n' then doc.insert_newline at_
    else if at_.y = doc.len then
      { doc with rows := doc.rows ++ [rowDefault.insert 0 c] }
    else
      { doc with
        rows := doc.rows.set at_.y ((doc.rows.getD at_.y rowDefault).insert at_.x c) }

/-- `Document::delete` (src/document.rs lines 85-99): the dirty flag is set
before the range guard. -/
def delete (doc : Document) (at_ : Position) : Document :=
  let doc := { doc with dirty := true }
  if at_.y ≥ doc.len then doc
  else if at_.x = (doc.rows.getD at_.y rowDefault).len ∧ at_.y + 1 < doc.len then
    let next_row := doc.rows.getD (at_.y + 1) rowDefault
    let rows := doc.rows.eraseIdx (at_.y + 1)
    { doc with rows := rows.set at_.y ((rows.getD at_.y rowDefault).append next_row) }
  else
    { doc with
      rows := doc.rows.set at_.y ((doc.rows.getD at_.y rowDefault).delete at_.x) }

/-- `Document::delete_row` (src/document.rs lines 100-103): `Vec::remove`
panics when the index is out of range; `none` marks the panic. -/
def delete_row (doc : Document) (at_ : Nat) : Option Document :=
  if at_ < doc.rows.length then
    some { doc with dirty := true, rows := doc.rows.eraseIdx at_ }
  else none

/-- `Document::insert_row` (src/document.rs lines 104-107): `Vec::insert`
panics when the index exceeds the length; `none` marks the panic. -/
def insert_row (doc : Document) (r : Row) (at_ : Nat) : Option Document :=
  if at_ ≤ doc.rows.length then
    some { doc with dirty := true, rows := doc.rows.insertIdx at_ r }
  else none

/-- `Document::find` (src/document.rs lines 63-70), inner loop:
`rows.iter().enumerate().skip(cursor_position.y)`. -/
def findAux (rows : List Row) (y : Nat) (query : List Char) : Option Position :=
  match rows with
  | [] => none
  | r :: rest =>
    match r.find query with
    | some x => some ⟨x, y⟩
    | none => findAux rest (y + 1) query

/-- `Document::find` (src/document.rs lines 63-70). -/
def find (doc : Document) (query : List Char) (cursor_position : Position) :
    Option Position :=
  findAux (doc.rows.drop cursor_position.y) cursor_position.y query

/-- The sequence of payloads `save` hands to `write_all` / `write`: the
bytes of each row, then a newline, row by row. -/
def saveWrites : List Row → List (List Char)
  | [] => []
  | r :: rest => r.string :: [Char.ofNat 10] :: saveWrites rest

/-- `Document::save` (src/document.rs lines 117-127). The file system is
the external collaborator: `failAt = some k` makes the `k`-th fallible
operation fail (`0` is `File::create`, `1 + i` the `i`-th write); the `?`
operator aborts there. Result: document (dirty cleared only on the success
path), success flag, bytes actually written. -/
def save (doc : Document) (failAt : Option Nat) :
    Document × Bool × List Char :=
  match doc.file_name with
  | none => (doc, true, [])
  | some _ =>
    let ws := saveWrites doc.rows
    match failAt with
    | none => ({ doc with dirty := false }, true, ws.flatten)
    | some k =>
      if k = 0 then (doc, false, [])
      else if k ≤ ws.length then (doc, false, ((ws.take (k - 1)).flatten))
      else ({ doc with dirty := false }, true, ws.flatten)

end Document

/-- The keys the modelled handlers distinguish (`termion::event::Key`). -/
inductive Key
  | up
  | down
  | left
  | right
  | pageUp
  | pageDown
  | home
  | endKey
  | backspace
deriving DecidableEq

namespace Editor

/-- `Editor::move_cursor` (src/editor.rs lines 291-354). `terminal_height`
is the height read from the terminal collaborator. -/
def move_cursor (doc : Document) (terminal_height : Nat) (pos : Position)
    (key : Key) : Position :=
  let height := doc.len
  let width := match doc.row pos.y with
    | some r => r.len
    | none => 0
  let moved : Nat × Nat :=
    match key with
    | .up => (pos.x, pos.y - 1)
    | .down => if pos.y < height then (pos.x, pos.y + 1) else (pos.x, pos.y)
    | .left =>
      if pos.x > 0 then (pos.x - 1, pos.y)
      else if pos.y > 0 then
        match doc.row (pos.y - 1) with
        | some r => (r.len, pos.y - 1)
        | none => (0, pos.y - 1)
      else (pos.x, pos.y)
    | .right =>
      if pos.x < width then (pos.x + 1, pos.y)
      else if pos.y < height then (0, pos.y + 1)
      else (pos.x, pos.y)
    | .pageUp =>
      (pos.x, if pos.y > terminal_height then pos.y - terminal_height else 0)
    | .pageDown =>
      (pos.x,
        if pos.y + terminal_height < height then pos.y + terminal_height
        else height)
    | .endKey => (width, pos.y)
    | .home => (0, pos.y)
    | .backspace => (pos.x, pos.y)
  let end_of_row := match doc.row moved.2 with
    | some r => r.len
    | none => 0
  ⟨if moved.1 > end_of_row then end_of_row else moved.1, moved.2⟩

/-- `Editor::move_row` (src/editor.rs lines 213-233): clone the current row,
remove it, conditionally reinsert one line up or down, then move the cursor
the same way on the updated document. `none` marks a container panic. -/
def move_row (doc : Document) (cursor : Position) (terminal_height : Nat)
    (key : Key) : Option (Document × Position) :=
  match doc.row cursor.y with
  | none => some (doc, cursor)
  | some r =>
    let new_row := r
    match doc.delete_row cursor.y with
    | none => none
    | some d1 =>
      let d2opt : Option Document :=
        match key with
        | .up =>
          if cursor.y > 0 then d1.insert_row new_row (cursor.y - 1)
          else some d1
        | .down =>
          if cursor.y + 1 ≤ d1.len then d1.insert_row new_row (cursor.y + 1)
          else some d1
        | _ => some d1
      match d2opt with
      | none => none
      | some d2 => some (d2, move_cursor d2 terminal_height cursor key)

/-- `Editor::scroll` (src/editor.rs lines 275-290); on `Nat`,
`saturating_add` is `+` and `saturating_sub` is `-`. -/
def scroll (cursor : Position) (width height : Nat) (offset : Position) :
    Position :=
  let oy :=
    if cursor.y < offset.y then cursor.y
    else if cursor.y ≥ offset.y + height then cursor.y - height + 1
    else offset.y
  let ox :=
    if cursor.x < offset.x then cursor.x
    else if cursor.x ≥ offset.x + width then cursor.x - width + 1
    else offset.x
  ⟨ox, oy⟩

/-- The `Key::Backspace` arm of `Editor::process_keypress`
(src/editor.rs lines 182-187). -/
def processBackspace (doc : Document) (cursor : Position)
    (terminal_height : Nat) : Document × Position :=
  if cursor.x > 0 ∨ cursor.y > 0 then
    let moved := move_cursor doc terminal_height cursor .left
    (doc.delete moved, moved)
  else (doc, cursor)

end Editor

/-! ### Segmentation lemmas -/

/-- `g` occurs as a contiguous segment of `l`. -/
def SubSeg (g l : List Char) : Prop :=
  ∃ u v, l = u ++ g ++ v

theorem SubSeg.refl (g : List Char) : SubSeg g g :=
  ⟨[], [], by simp⟩

theorem SubSeg.trans {a b c : List Char} (h₁ : SubSeg a b) (h₂ : SubSeg b c) :
    SubSeg a c := by
  obtain ⟨u₁, v₁, rfl⟩ := h₁
  obtain ⟨u₂, v₂, rfl⟩ := h₂
  exact ⟨u₂ ++ u₁, v₁ ++ v₂, by simp⟩

/-- Unfolding equation of the scan on a cons cell. -/
theorem graphemesGo_cons (cur : List Char) (c : Char) (rest : List Char) :
    graphemesGo cur (c :: rest) =
      if breakBetween cur c then cur :: graphemesGo [c] rest
      else graphemesGo (cur ++ [c]) rest :=
  rfl

/-- A `Chain'` over a cons cell is a `Chain` from its head. -/
theorem chain_of_chain_cons {c : Char} {g' : List Char}
    (h : List.Chain' (fun a b => noBreak a b = true) (c :: g')) :
    List.Chain (fun a b => noBreak a b = true) c g' :=
  h

/-- Unfolding of `breakBetween` once the last character is known. -/
theorem breakBetween_eq (cur : List Char) (a c : Char)
    (hlast : cur.getLast? = some a) :
    breakBetween cur c =
      (if classOf a = .cr ∧ classOf c = .lf then false
       else if classOf a = .cr ∨ classOf a = .lf ∨ classOf a = .control then
         true
       else if classOf c = .cr ∨ classOf c = .lf ∨ classOf c = .control then
         true
       else if classOf c = .extendMark then false
       else if classOf a = .ri ∧ classOf c = .ri then
         (cur.reverse.takeWhile (fun x => classOf x = GClass.ri)).length %
           2 == 0
       else true) := by
  unfold breakBetween
  rw [hlast]

/-- A pairwise-suppressed boundary (GB3 or GB9) is suppressed by the scan
regardless of the cluster state: those cases never consult the
regional-indicator run. -/
theorem breakBetween_eq_false_of_noBreak (cur : List Char) (a c : Char)
    (hlast : cur.getLast? = some a) (hnb : noBreak a c = true) :
    breakBetween cur c = false := by
  unfold noBreak at hnb
  simp only [Bool.or_eq_true, Bool.and_eq_true, Bool.not_eq_true',
    Bool.or_eq_false_iff, decide_eq_true_eq, decide_eq_false_iff_not] at hnb
  rw [breakBetween_eq cur a c hlast]
  rcases hnb with h | h
  · rw [if_pos (by tauto)]
  · rw [if_neg (by tauto), if_neg (by tauto), if_neg (by tauto),
      if_pos (by tauto)]

/-- The scanned clusters concatenate to the cluster state plus the rest. -/
theorem graphemesGo_flatten :
    ∀ (rest cur : List Char), (graphemesGo cur rest).flatten = cur ++ rest := by
  intro rest
  induction rest with
  | nil => intro cur; simp [graphemesGo]
  | cons c rest' ih =>
    intro cur
    rw [graphemesGo_cons]
    by_cases hb : breakBetween cur c = true
    · rw [if_pos hb]
      simp [ih]
    · rw [if_neg hb]
      rw [ih]
      simp

/-- The clusters of a sequence concatenate back to the sequence. -/
theorem graphemes_flatten : ∀ l : List Char, (graphemes l).flatten = l := by
  intro l
  cases l with
  | nil => rfl
  | cons c rest =>
    show (graphemesGo [c] rest).flatten = c :: rest
    rw [graphemesGo_flatten]
    rfl

/-- Every scanned cluster is nonempty. -/
theorem graphemesGo_ne_nil :
    ∀ (rest cur : List Char), cur ≠ [] →
      ∀ g ∈ graphemesGo cur rest, g ≠ [] := by
  intro rest
  induction rest with
  | nil =>
    intro cur hcur g hg
    simp [graphemesGo] at hg
    subst hg
    exact hcur
  | cons c rest' ih =>
    intro cur hcur g hg
    rw [graphemesGo_cons] at hg
    by_cases hb : breakBetween cur c = true
    · rw [if_pos hb] at hg
      rcases List.mem_cons.mp hg with rfl | hg2
      · exact hcur
      · exact ih [c] (by simp) g hg2
    · rw [if_neg hb] at hg
      exact ih (cur ++ [c]) (by simp) g hg

/-- Every cluster is nonempty. -/
theorem graphemes_ne_nil : ∀ (l : List Char) (g : List Char),
    g ∈ graphemes l → g ≠ [] := by
  intro l g hg
  cases l with
  | nil => simp [graphemes] at hg
  | cons c rest => exact graphemesGo_ne_nil rest [c] (by simp) g hg

/-- Consuming a `noBreak`-chained block only extends the current cluster. -/
theorem graphemesGo_chain_append :
    ∀ (g2 cur t0 : List Char) (a : Char), cur.getLast? = some a →
      List.Chain (fun x y => noBreak x y = true) a g2 →
      graphemesGo cur (g2 ++ t0) = graphemesGo (cur ++ g2) t0 := by
  intro g2
  induction g2 with
  | nil => intro cur t0 a _ _; simp
  | cons d g2' ih =>
    intro cur t0 a hlast hchain
    rcases List.chain_cons.mp hchain with ⟨hnb, hchain'⟩
    have hb := breakBetween_eq_false_of_noBreak cur a d hlast hnb
    show graphemesGo cur (d :: (g2' ++ t0)) = _
    rw [graphemesGo_cons, if_neg (by simp [hb])]
    rw [ih (cur ++ [d]) t0 d (by simp) hchain']
    simp

/-- The first scanned cluster extends the current cluster state. -/
theorem graphemesGo_first :
    ∀ (rest cur : List Char),
      ∃ t gs, graphemesGo cur rest = (cur ++ t) :: gs := by
  intro rest
  induction rest with
  | nil => intro cur; exact ⟨[], [], by simp [graphemesGo]⟩
  | cons c rest' ih =>
    intro cur
    by_cases hb : breakBetween cur c = true
    · exact ⟨[], graphemesGo [c] rest',
        by rw [graphemesGo_cons, if_pos hb]; simp⟩
    · obtain ⟨t, gs, ht⟩ := ih (cur ++ [c])
      exact ⟨c :: t, gs, by rw [graphemesGo_cons, if_neg hb, ht]; simp⟩

/-- A nonempty `noBreak`-chained block at the head of the sequence lies at
the head of the first cluster. -/
theorem chain_prefix_cluster :
    ∀ (g : List Char), g ≠ [] → List.Chain' (fun a b => noBreak a b = true) g →
      ∀ t0 : List Char, ∃ t gs, graphemes (g ++ t0) = (g ++ t) :: gs := by
  intro g hne hchain t0
  cases g with
  | nil => exact absurd rfl hne
  | cons c g' =>
    show ∃ t gs, graphemesGo [c] (g' ++ t0) = ((c :: g') ++ t) :: gs
    rw [graphemesGo_chain_append g' [c] t0 c rfl (chain_of_chain_cons hchain)]
    simpa using graphemesGo_first t0 (c :: g')

/-- A nonempty `noBreak`-chained sequence is a single cluster. -/
theorem graphemes_of_chain (g : List Char) (hne : g ≠ [])
    (hchain : List.Chain' (fun a b => noBreak a b = true) g) :
    graphemes g = [g] := by
  obtain ⟨t, gs, ht⟩ := chain_prefix_cluster g hne hchain []
  rw [List.append_nil] at ht
  have hflat := graphemes_flatten g
  rw [ht] at hflat
  simp only [List.flatten_cons] at hflat
  have hlen := congrArg List.length hflat
  simp only [List.length_append] at hlen
  have ht0 : t = [] := by
    have : t.length = 0 := by omega
    exact List.length_eq_zero.mp this
  have hgs0 : gs.flatten = [] := by
    have : gs.flatten.length = 0 := by omega
    exact List.length_eq_zero.mp this
  have hgs : gs = [] := by
    cases hgse : gs with
    | nil => rfl
    | cons h0 hs =>
      exfalso
      have hmem : h0 ∈ graphemes g := by
        rw [ht, hgse]; exact List.mem_cons_of_mem _ (List.mem_cons_self _ _)
      have hne0 : h0 ≠ [] := graphemes_ne_nil g h0 hmem
      rw [hgse] at hgs0
      simp only [List.flatten_cons] at hgs0
      exact hne0 (List.append_eq_nil.mp hgs0).1
  rw [ht, ht0, hgs]
  simp

/-- While scanning, a `noBreak`-chained block in the remaining input always
ends up inside a single cluster. -/
theorem graphemesGo_chain_scan :
    ∀ (u cur g v : List Char), cur ≠ [] → g ≠ [] →
      List.Chain' (fun a b => noBreak a b = true) g →
      ∃ h, h ∈ graphemesGo cur (u ++ g ++ v) ∧ SubSeg g h := by
  intro u
  induction u with
  | nil =>
    intro cur g v hcur hne hchain
    cases g with
    | nil => exact absurd rfl hne
    | cons c g' =>
      show ∃ h, h ∈ graphemesGo cur (c :: (g' ++ v)) ∧ SubSeg (c :: g') h
      by_cases hb : breakBetween cur c = true
      · rw [graphemesGo_cons, if_pos hb]
        rw [graphemesGo_chain_append g' [c] v c rfl (chain_of_chain_cons hchain)]
        simp only [List.singleton_append]
        obtain ⟨t, gs, ht⟩ := graphemesGo_first v (c :: g')
        rw [ht]
        exact ⟨(c :: g') ++ t,
          List.mem_cons_of_mem _ (List.mem_cons_self _ _), ⟨[], t, by simp⟩⟩
      · rw [graphemesGo_cons, if_neg hb]
        rw [graphemesGo_chain_append g' (cur ++ [c]) v c (by simp)
          (chain_of_chain_cons hchain)]
        obtain ⟨t, gs, ht⟩ := graphemesGo_first v ((cur ++ [c]) ++ g')
        rw [ht]
        exact ⟨((cur ++ [c]) ++ g') ++ t, List.mem_cons_self _ _,
          ⟨cur, t, by simp⟩⟩
  | cons d u' ih =>
    intro cur g v hcur hne hchain
    show ∃ h, h ∈ graphemesGo cur (d :: (u' ++ g ++ v)) ∧ SubSeg g h
    by_cases hb : breakBetween cur d = true
    · rw [graphemesGo_cons, if_pos hb]
      obtain ⟨h, hm, hs⟩ := ih [d] g v (by simp) hne hchain
      exact ⟨h, List.mem_cons_of_mem _ hm, hs⟩
    · rw [graphemesGo_cons, if_neg hb]
      exact ih (cur ++ [d]) g v (by simp) hne hchain

/-- A nonempty `noBreak`-chained block occurring anywhere in a sequence is
contained in a single cluster of that sequence. -/
theorem chain_subseg_cluster :
    ∀ (u g v : List Char), g ≠ [] →
      List.Chain' (fun a b => noBreak a b = true) g →
      ∃ h, h ∈ graphemes (u ++ g ++ v) ∧ SubSeg g h := by
  intro u g v hne hchain
  cases u with
  | nil =>
    obtain ⟨t, gs, ht⟩ := chain_prefix_cluster g hne hchain v
    refine ⟨g ++ t, ?_, ⟨[], t, by simp⟩⟩
    simp only [List.nil_append]
    rw [ht]
    exact List.mem_cons_self _ _
  | cons d u' =>
    show ∃ h, h ∈ graphemesGo [d] (u' ++ g ++ v) ∧ SubSeg g h
    exact graphemesGo_chain_scan u' [d] g v (by simp) hne hchain

/-- The scan produces at most one cluster per character plus one. -/
theorem graphemesGo_length :
    ∀ (rest cur : List Char),
      (graphemesGo cur rest).length ≤ rest.length + 1 := by
  intro rest
  induction rest with
  | nil => intro cur; simp [graphemesGo]
  | cons c rest' ih =>
    intro cur
    rw [graphemesGo_cons]
    by_cases hb : breakBetween cur c = true
    · rw [if_pos hb]
      have h1 := ih [c]
      simp at h1 ⊢
      omega
    · rw [if_neg hb]
      have h1 := ih (cur ++ [c])
      simp at h1 ⊢
      omega

/-- There are at most as many clusters as characters. -/
theorem graphemes_length_le : ∀ l : List Char,
    (graphemes l).length ≤ l.length := by
  intro l
  cases l with
  | nil => simp [graphemes]
  | cons c rest =>
    show (graphemesGo [c] rest).length ≤ rest.length + 1
    exact graphemesGo_length rest [c]

/-- Every scalar takes at least one byte. -/
theorem one_le_utf8Len (c : Char) : 1 ≤ utf8Len c := by
  unfold utf8Len
  split
  · omega
  · split
    · omega
    · split <;> omega

/-- A sequence has at least as many bytes as scalars. -/
theorem length_le_utf8Length : ∀ l : List Char, l.length ≤ utf8Length l := by
  intro l
  induction l with
  | nil => simp [utf8Length]
  | cons c rest ih =>
    have := one_le_utf8Len c
    simp only [utf8Length, List.map_cons, List.sum_cons, List.length_cons] at *
    omega

/-! ### List permutation helpers -/

theorem insertIdx_eq_take_cons_drop {α : Type} (x : α) :
    ∀ (k : Nat) (l : List α), k ≤ l.length →
      l.insertIdx k x = l.take k ++ x :: l.drop k := by
  intro k
  induction k with
  | zero => intro l _; simp
  | succ n ih =>
    intro l hl
    cases l with
    | nil => simp at hl
    | cons a l' =>
      rw [List.insertIdx_succ_cons]
      rw [ih l' (by simpa using hl)]
      simp

theorem insertIdx_perm_cons {α : Type} (x : α) (k : Nat) (l : List α)
    (h : k ≤ l.length) : (l.insertIdx k x).Perm (x :: l) := by
  rw [insertIdx_eq_take_cons_drop x k l h]
  have hm : (l.take k ++ x :: l.drop k).Perm (x :: (l.take k ++ l.drop k)) :=
    List.perm_middle
  rwa [List.take_append_drop] at hm

theorem perm_cons_eraseIdx {α : Type} (l : List α) (i : Nat)
    (h : i < l.length) : l.Perm (l[i] :: l.eraseIdx i) := by
  rw [List.eraseIdx_eq_take_drop_succ]
  have hm : (l.take i ++ l[i] :: l.drop (i + 1)).Perm
      (l[i] :: (l.take i ++ l.drop (i + 1))) :=
    List.perm_middle
  have hsplit : l = l.take i ++ l[i] :: l.drop (i + 1) := by
    conv_lhs => rw [← List.take_append_drop i l, List.drop_eq_getElem_cons h]
  conv_lhs => rw [hsplit]
  exact hm

/-! ### Claim theorems -/

/-- C10: with the cursor at the origin, the `Backspace` arm of
`process_keypress` changes neither the document (its lines and its dirty
flag) nor the cursor. -/
theorem c10_backspace_at_origin_noop (doc : Document) (th : Nat) :
    Editor.processBackspace doc ⟨0, 0⟩ th = (doc, ⟨0, 0⟩) := by
  simp [Editor.processBackspace]

/-- C1: contrary to the defensive-operations contract, `delete_row` with an
index at or past the line count does not complete: `Vec::remove` panics
(modelled by `none`); in particular `Ctrl-d` on an empty buffer crashes. -/
theorem c1_delete_row_out_of_range_panics :
    (∀ (doc : Document) (a : Nat), doc.len ≤ a → doc.delete_row a = none) ∧
    Document.delete_row ⟨[], none, false⟩ 0 = none := by
  constructor
  · intro doc a h
    have h2 : doc.rows.length ≤ a := h
    unfold Document.delete_row
    rw [if_neg (Nat.not_lt.mpr h2)]
  · rfl

/-- Witness: `delete_row` at index 1 of a one-line document panics. -/
theorem c1_witness :
    Document.delete_row ⟨[rowFrom ['a']], none, false⟩ 1 = none :=
  c1_delete_row_out_of_range_panics.1 ⟨[rowFrom ['a']], none, false⟩ 1
    (by decide)

/-- C3 counterexample: on the empty document, `delete` at (0,0) (y ≥
lineCount) leaves the rows alone but flips the dirty flag from false to
true, so the claimed frame condition on the dirty flag fails. -/
theorem c3_counterexample :
    ¬ ((Document.delete ⟨[], none, false⟩ ⟨0, 0⟩).rows =
          (⟨[], none, false⟩ : Document).rows ∧
       (Document.delete ⟨[], none, false⟩ ⟨0, 0⟩).dirty =
          (⟨[], none, false⟩ : Document).dirty) := by
  decide

/-- C3 amended: `delete` at a position with y ≥ lineCount leaves the rows
unchanged, but unconditionally sets the dirty flag to true (the flag is set
before the range guard, even though nothing is mutated). -/
theorem c3_delete_out_of_range (doc : Document) (p : Position)
    (h : doc.len ≤ p.y) :
    (doc.delete p).rows = doc.rows ∧ (doc.delete p).dirty = true := by
  have h2 : doc.rows.length ≤ p.y := h
  simp only [Document.delete, Document.len]
  rw [if_pos h2]
  exact ⟨rfl, rfl⟩

/-- Witness for C3 amended at the empty document. -/
theorem c3_witness :
    (Document.delete ⟨[], none, false⟩ ⟨0, 0⟩).rows =
        (⟨[], none, false⟩ : Document).rows ∧
    (Document.delete ⟨[], none, false⟩ ⟨0, 0⟩).dirty = true :=
  c3_delete_out_of_range ⟨[], none, false⟩ ⟨0, 0⟩ (by decide)

/-- C9 counterexample: with height 0, `scroll` is not idempotent — at
cursor (0,0), width 1, height 0, offset (0,0) the first application yields
offset (0,1) and the second yields (0,0). -/
theorem c9_counterexample :
    Editor.scroll ⟨0, 0⟩ 1 0 (Editor.scroll ⟨0, 0⟩ 1 0 ⟨0, 0⟩) ≠
      Editor.scroll ⟨0, 0⟩ 1 0 ⟨0, 0⟩ := by
  decide

/-- C9 amended: `scroll` is idempotent for every cursor and offset as soon
as the viewport has positive width and height. -/
theorem c9_scroll_idempotent (cursor offset : Position) (w h : Nat)
    (hw : 1 ≤ w) (hh : 1 ≤ h) :
    Editor.scroll cursor w h (Editor.scroll cursor w h offset) =
      Editor.scroll cursor w h offset := by
  simp only [Editor.scroll, Position.mk.injEq]
  constructor <;> (split_ifs <;> omega)

/-- Witness for C9 amended at a concrete cursor, offset and viewport. -/
theorem c9_witness :
    Editor.scroll ⟨5, 7⟩ 3 2 (Editor.scroll ⟨5, 7⟩ 3 2 ⟨0, 0⟩) =
      Editor.scroll ⟨5, 7⟩ 3 2 ⟨0, 0⟩ :=
  c9_scroll_idempotent ⟨5, 7⟩ ⟨0, 0⟩ 3 2 (by decide) (by decide)

/-- C2 counterexample: on the one-line buffer `["a"]` with the cursor on
line 0, `move_row Up` removes the line and never reinserts it — the buffer
ends up empty, which is not a permutation of the original lines. -/
theorem c2_counterexample :
    Editor.move_row ⟨[rowFrom ['a']], none, false⟩ ⟨0, 0⟩ 10 Key.up =
        some (⟨[], none, true⟩, ⟨0, 0⟩) ∧
    ¬ (([] : List Row).Perm [rowFrom ['a']]) := by
  decide

/-- C2 amended: when the cursor line exists, `move_row Up` with y > 0 and
`move_row Down` with y + 1 < lineCount are pure reorderings (the multiset
of lines is preserved); at the boundaries (Up on the first line, Down on
the last line) the current line is removed and dropped instead. -/
theorem c2_move_row (doc : Document) (cursor : Position) (th : Nat)
    (hy : cursor.y < doc.len) :
    (0 < cursor.y →
      ∃ d p, Editor.move_row doc cursor th Key.up = some (d, p) ∧
        d.rows.Perm doc.rows) ∧
    (cursor.y + 1 < doc.len →
      ∃ d p, Editor.move_row doc cursor th Key.down = some (d, p) ∧
        d.rows.Perm doc.rows) ∧
    (cursor.y = 0 →
      ∃ d p, Editor.move_row doc cursor th Key.up = some (d, p) ∧
        d.rows = doc.rows.eraseIdx cursor.y) ∧
    (cursor.y + 1 = doc.len →
      ∃ d p, Editor.move_row doc cursor th Key.down = some (d, p) ∧
        d.rows = doc.rows.eraseIdx cursor.y) := by
  have hylen : cursor.y < doc.rows.length := hy
  have hlen1 := List.length_eraseIdx_add_one hylen
  have hrow : doc.row cursor.y = some (doc.rows[cursor.y]) := by
    simp [Document.row, List.getElem?_eq_getElem hylen]
  have hdel : doc.delete_row cursor.y =
      some ⟨doc.rows.eraseIdx cursor.y, doc.file_name, true⟩ := by
    unfold Document.delete_row
    rw [if_pos hylen]
  refine ⟨?_, ?_, ?_, ?_⟩
  · intro h0
    have hins : Document.insert_row ⟨doc.rows.eraseIdx cursor.y, doc.file_name, true⟩
        (doc.rows[cursor.y]) (cursor.y - 1) =
        some ⟨(doc.rows.eraseIdx cursor.y).insertIdx (cursor.y - 1)
          (doc.rows[cursor.y]), doc.file_name, true⟩ := by
      unfold Document.insert_row
      rw [if_pos (by simp only [Document.len] at *; omega)]
    refine ⟨⟨(doc.rows.eraseIdx cursor.y).insertIdx (cursor.y - 1)
        (doc.rows[cursor.y]), doc.file_name, true⟩,
      Editor.move_cursor ⟨(doc.rows.eraseIdx cursor.y).insertIdx (cursor.y - 1)
        (doc.rows[cursor.y]), doc.file_name, true⟩ th cursor Key.up, ?_, ?_⟩
    · simp only [Editor.move_row, hrow, hdel]
      rw [if_pos h0, hins]
    · have h1 := insertIdx_perm_cons (doc.rows[cursor.y]) (cursor.y - 1)
        (doc.rows.eraseIdx cursor.y) (by omega)
      exact h1.trans (perm_cons_eraseIdx doc.rows cursor.y hylen).symm
  · intro h0
    have hcond : cursor.y + 1 ≤ (doc.rows.eraseIdx cursor.y).length := by
      simp only [Document.len] at h0
      omega
    have hins : Document.insert_row ⟨doc.rows.eraseIdx cursor.y, doc.file_name, true⟩
        (doc.rows[cursor.y]) (cursor.y + 1) =
        some ⟨(doc.rows.eraseIdx cursor.y).insertIdx (cursor.y + 1)
          (doc.rows[cursor.y]), doc.file_name, true⟩ := by
      unfold Document.insert_row
      rw [if_pos hcond]
    refine ⟨⟨(doc.rows.eraseIdx cursor.y).insertIdx (cursor.y + 1)
        (doc.rows[cursor.y]), doc.file_name, true⟩,
      Editor.move_cursor ⟨(doc.rows.eraseIdx cursor.y).insertIdx (cursor.y + 1)
        (doc.rows[cursor.y]), doc.file_name, true⟩ th cursor Key.down, ?_, ?_⟩
    · simp only [Editor.move_row, hrow, hdel, Document.len]
      rw [if_pos hcond, hins]
    · have h1 := insertIdx_perm_cons (doc.rows[cursor.y]) (cursor.y + 1)
        (doc.rows.eraseIdx cursor.y) hcond
      exact h1.trans (perm_cons_eraseIdx doc.rows cursor.y hylen).symm
  · intro h0
    refine ⟨⟨doc.rows.eraseIdx cursor.y, doc.file_name, true⟩,
      Editor.move_cursor ⟨doc.rows.eraseIdx cursor.y, doc.file_name, true⟩
        th cursor Key.up, ?_, rfl⟩
    simp only [Editor.move_row, hrow, hdel]
    rw [if_neg (by omega)]
  · intro h0
    have hcond : ¬ (cursor.y + 1 ≤ (doc.rows.eraseIdx cursor.y).length) := by
      simp only [Document.len] at h0
      omega
    refine ⟨⟨doc.rows.eraseIdx cursor.y, doc.file_name, true⟩,
      Editor.move_cursor ⟨doc.rows.eraseIdx cursor.y, doc.file_name, true⟩
        th cursor Key.down, ?_, rfl⟩
    simp only [Editor.move_row, hrow, hdel, Document.len]
    rw [if_neg hcond]

/-- Witness for C2 amended: swapping the two lines of `["a","b"]` from the
second line upward keeps both lines. -/
theorem c2_witness :
    ∃ d p, Editor.move_row ⟨[rowFrom ['a'], rowFrom ['b']], none, false⟩
        ⟨0, 1⟩ 10 Key.up = some (d, p) ∧
      d.rows.Perm [rowFrom ['a'], rowFrom ['b']] :=
  (c2_move_row ⟨[rowFrom ['a'], rowFrom ['b']], none, false⟩ ⟨0, 1⟩ 10
    (by decide)).1 (by decide)

/-- Flattening the write payloads gives one newline-terminated record per
row, in order. -/
theorem saveWrites_flatten (rows : List Row) :
    (Document.saveWrites rows).flatten =
      (rows.map (fun r => r.string ++ [Char.ofNat 10])).flatten := by
  induction rows with
  | nil => rfl
  | cons r rest ih => simp [Document.saveWrites, ih]

/-- Unfolding: `save` with no file name writes nothing and reports success. -/
theorem save_no_name (doc : Document) (failAt : Option Nat)
    (h : doc.file_name = none) : doc.save failAt = (doc, true, []) := by
  unfold Document.save
  rw [h]

/-- Unfolding: `save` with a file name and no failing operation. -/
theorem save_success (doc : Document) (nm : List Char)
    (h : doc.file_name = some nm) :
    doc.save none =
      ({ doc with dirty := false }, true,
        (Document.saveWrites doc.rows).flatten) := by
  unfold Document.save
  rw [h]

/-- Unfolding: `save` with a file name and a designated failing operation. -/
theorem save_failing (doc : Document) (nm : List Char) (k : Nat)
    (h : doc.file_name = some nm) :
    doc.save (some k) =
      if k = 0 then (doc, false, [])
      else if k ≤ (Document.saveWrites doc.rows).length then
        (doc, false, ((Document.saveWrites doc.rows).take (k - 1)).flatten)
      else
        ({ doc with dirty := false }, true,
          (Document.saveWrites doc.rows).flatten) := by
  unfold Document.save
  rw [h]

/-- C7: when a file name is present, a successful `save` writes each line's
content in buffer order, each terminated by a line break, and clears the
dirty flag; whenever `save` reports failure the dirty flag is left exactly
as it was (so it remains set), and no mutating buffer operation (insert,
delete, delete_row, insert_row) or failing save ever clears a set dirty
flag. -/
theorem c7_save (doc : Document) (failAt : Option Nat) :
    (doc.file_name.isSome = true → (doc.save failAt).2.1 = true →
      (doc.save failAt).2.2 =
          (doc.rows.map (fun r => r.string ++ [Char.ofNat 10])).flatten ∧
        (doc.save failAt).1.dirty = false) ∧
    ((doc.save failAt).2.1 = false → (doc.save failAt).1.dirty = doc.dirty) ∧
    (doc.dirty = true →
      (∀ p c, (doc.insert p c).dirty = true) ∧
      (∀ p, (doc.delete p).dirty = true) ∧
      (∀ a d, doc.delete_row a = some d → d.dirty = true) ∧
      (∀ r a d, doc.insert_row r a = some d → d.dirty = true) ∧
      ((doc.save failAt).2.1 = false → (doc.save failAt).1.dirty = true)) := by
  have hfail : (doc.save failAt).2.1 = false →
      (doc.save failAt).1.dirty = doc.dirty := by
    intro h
    cases hf : doc.file_name with
    | none => rw [save_no_name doc failAt hf] at h; simp at h
    | some nm =>
      cases failAt with
      | none => rw [save_success doc nm hf] at h; simp at h
      | some k =>
        rw [save_failing doc nm k hf] at h ⊢
        by_cases h0 : k = 0
        · rw [if_pos h0]
        · rw [if_neg h0] at h ⊢
          by_cases h1 : k ≤ (Document.saveWrites doc.rows).length
          · rw [if_pos h1]
          · rw [if_neg h1] at h; simp at h
  refine ⟨?_, hfail, ?_⟩
  · intro hname hok
    cases hf : doc.file_name with
    | none => rw [hf] at hname; simp at hname
    | some nm =>
      cases failAt with
      | none =>
        rw [save_success doc nm hf]
        exact ⟨saveWrites_flatten doc.rows, rfl⟩
      | some k =>
        rw [save_failing doc nm k hf] at hok ⊢
        by_cases h0 : k = 0
        · rw [if_pos h0] at hok; simp at hok
        · rw [if_neg h0] at hok ⊢
          by_cases h1 : k ≤ (Document.saveWrites doc.rows).length
          · rw [if_pos h1] at hok; simp at hok
          · rw [if_neg h1]
            exact ⟨saveWrites_flatten doc.rows, rfl⟩
  · intro hd
    refine ⟨?_, ?_, ?_, ?_, fun h => by rw [hfail h]; exact hd⟩
    · intro p c
      simp only [Document.insert, Document.insert_newline, Document.len]
      split_ifs <;> first | rfl | exact hd
    · intro p
      simp only [Document.delete, Document.len]
      split_ifs <;> rfl
    · intro a d h
      unfold Document.delete_row at h
      split at h
      · injection h with h2
        rw [← h2]
      · cases h
    · intro r a d h
      unfold Document.insert_row at h
      split at h
      · injection h with h2
        rw [← h2]
      · cases h

/-- Witness for C7 at a one-line named dirty document with a fully
successful write, a failing write, and the mutating operations. -/
theorem c7_witness :
    ((⟨[rowFrom ['a']], some ['f'], true⟩ : Document).save none).2.2 =
        (([rowFrom ['a']].map (fun r => r.string ++ [Char.ofNat 10])).flatten) ∧
      ((⟨[rowFrom ['a']], some ['f'], true⟩ : Document).save none).1.dirty =
        false :=
  (c7_save ⟨[rowFrom ['a']], some ['f'], true⟩ none).1 (by decide) (by decide)

/-- `getD` through `drop`. -/
theorem getD_drop (l : List Row) (a i : Nat) :
    (l.drop a).getD i rowDefault = l.getD (a + i) rowDefault := by
  rw [List.getD_eq_getElem?_getD, List.getD_eq_getElem?_getD, List.getElem?_drop]

/-- Unfolding: `findAux` on a matching head row. -/
theorem findAux_cons_some (r : Row) (rest : List Row) (y0 : Nat)
    (q : List Char) (x : Nat) (hf : r.find q = some x) :
    Document.findAux (r :: rest) y0 q = some ⟨x, y0⟩ := by
  unfold Document.findAux
  rw [hf]

/-- Unfolding: `findAux` on a non-matching head row. -/
theorem findAux_cons_none (r : Row) (rest : List Row) (y0 : Nat)
    (q : List Char) (hf : r.find q = none) :
    Document.findAux (r :: rest) y0 q = Document.findAux rest (y0 + 1) q := by
  conv_lhs => unfold Document.findAux
  rw [hf]

/-- A successful `findAux` result: it lies at or after the anchor, inside
the scanned rows, it is a real row match, and all scanned rows before it
have no match. -/
theorem findAux_some :
    ∀ (rows : List Row) (y0 : Nat) (q : List Char) (res : Position),
      Document.findAux rows y0 q = some res →
        y0 ≤ res.y ∧ res.y - y0 < rows.length ∧
        (rows.getD (res.y - y0) rowDefault).find q = some res.x ∧
        ∀ i, i < res.y - y0 → (rows.getD i rowDefault).find q = none := by
  intro rows
  induction rows with
  | nil => intro y0 q res h; simp [Document.findAux] at h
  | cons r rest ih =>
    intro y0 q res h
    cases hf : r.find q with
    | some x =>
      rw [findAux_cons_some r rest y0 q x hf] at h
      injection h with h2
      subst h2
      refine ⟨Nat.le_refl _, by simp, by simpa using hf, ?_⟩
      intro i hi
      simp at hi
    | none =>
      rw [findAux_cons_none r rest y0 q hf] at h
      obtain ⟨h1, h2, h3, h4⟩ := ih (y0 + 1) q res h
      refine ⟨by omega, by simp; omega, ?_, ?_⟩
      · have hy : res.y - y0 = (res.y - (y0 + 1)) + 1 := by omega
        rw [hy]
        simpa using h3
      · intro i hi
        cases i with
        | zero => simpa using hf
        | succ j =>
          have hj : j < res.y - (y0 + 1) := by omega
          simpa using h4 j hj

/-- A failed `findAux`: no scanned row matches. -/
theorem findAux_none :
    ∀ (rows : List Row) (y0 : Nat) (q : List Char),
      Document.findAux rows y0 q = none →
        ∀ i, i < rows.length → (rows.getD i rowDefault).find q = none := by
  intro rows
  induction rows with
  | nil => intro y0 q _ i hi; simp at hi
  | cons r rest ih =>
    intro y0 q h i hi
    cases hf : r.find q with
    | some x => rw [findAux_cons_some r rest y0 q x hf] at h; cases h
    | none =>
      rw [findAux_cons_none r rest y0 q hf] at h
      cases i with
      | zero => simpa using hf
      | succ j =>
        have hj : j < rest.length := by simpa using hi
        simpa using ih (y0 + 1) q h j hj

/-- The demonstration buffer of the specification. -/
def demoDoc : Document :=
  ⟨[rowFrom "hello world".toList, rowFrom "foo bar".toList], none, false⟩

/-- C8: `find` scans lines in increasing index order from the anchor line,
never looking at earlier lines: a returned position is at or after the
anchor line, is a real row match (with x the grapheme index reported by the
row search), and every line from the anchor up to it has no match; a `none`
result means no line from the anchor onward matches. On the buffer
`["hello world", "foo bar"]`, searching "bar" from (0,0) yields (x=4, y=1)
and searching "zzz" yields none. -/
theorem c8_find_forward :
    (∀ (doc : Document) (q : List Char) (p res : Position),
        doc.find q p = some res →
          p.y ≤ res.y ∧ res.y < doc.len ∧
          (doc.rows.getD res.y rowDefault).find q = some res.x ∧
          ∀ y, p.y ≤ y → y < res.y →
            (doc.rows.getD y rowDefault).find q = none) ∧
    (∀ (doc : Document) (q : List Char) (p : Position),
        doc.find q p = none →
          ∀ y, p.y ≤ y → y < doc.len →
            (doc.rows.getD y rowDefault).find q = none) ∧
    demoDoc.find "bar".toList ⟨0, 0⟩ = some ⟨4, 1⟩ ∧
    demoDoc.find "zzz".toList ⟨0, 0⟩ = none := by
  refine ⟨?_, ?_, by decide, by decide⟩
  · intro doc q p res h
    unfold Document.find at h
    obtain ⟨h1, h2, h3, h4⟩ := findAux_some _ _ _ _ h
    rw [List.length_drop] at h2
    refine ⟨h1, by simp only [Document.len]; omega, ?_, ?_⟩
    · rw [getD_drop] at h3
      rwa [Nat.add_sub_cancel' h1] at h3
    · intro y hpy hylt
      have hr := h4 (y - p.y) (by omega)
      rw [getD_drop] at hr
      rwa [Nat.add_sub_cancel' hpy] at hr
  · intro doc q p h
    unfold Document.find at h
    intro y hpy hylt
    simp only [Document.len] at hylt
    have hr := findAux_none _ _ _ h (y - p.y)
      (by rw [List.length_drop]; omega)
    rw [getD_drop] at hr
    rwa [Nat.add_sub_cancel' hpy] at hr

/-- Witness for C8 on the demonstration buffer: the match (4,1) for "bar"
from (0,0) satisfies the forward-scan characterisation. -/
theorem c8_witness :
    (0 : Nat) ≤ 1 ∧ 1 < demoDoc.len ∧
      (demoDoc.rows.getD 1 rowDefault).find "bar".toList = some 4 ∧
      ∀ y, (0 : Nat) ≤ y → y < 1 →
        (demoDoc.rows.getD y rowDefault).find "bar".toList = none :=
  c8_find_forward.1 demoDoc "bar".toList ⟨0, 0⟩ ⟨4, 1⟩ (by decide)

/-- The render loop accumulates one rendered cluster after another. -/
theorem foldl_renderCluster :
    ∀ (l : List (List Char)) (acc : List Char),
      l.foldl (fun acc g => acc ++ Row.renderCluster g) acc =
        acc ++ (l.map Row.renderCluster).flatten := by
  intro l
  induction l with
  | nil => intro acc; simp
  | cons g gs ih => intro acc; simp [ih]

/-- C6 counterexample: on the one-cluster line "a◌́" (a followed by the
combining acute), `render 0 5` does not return the cluster slice itself:
the cluster is truncated to its first scalar and a reset escape is
appended. -/
theorem c6_counterexample :
    Row.render (rowFrom ['a', Char.ofNat 0x301]) 0 5 ≠
      ['a', Char.ofNat 0x301] := by
  decide

/-- C6 amended: `render start end` returns, for each cluster at indices
[start, end) clipped to the line's bounds, one space if the cluster is a
tab and otherwise only the cluster's FIRST scalar value, and then appends
the ANSI reset-foreground escape. -/
theorem c6_render (r : Row) (start endp : Nat) :
    Row.render r start endp =
      ((((graphemes r.string).drop start).take (endp - start)).map
        Row.renderCluster).flatten ++ Row.resetFgSeq := by
  have hn : (graphemes r.string).length ≤ utf8Length r.string :=
    le_trans (graphemes_length_le r.string) (length_le_utf8Length r.string)
  simp only [Row.render]
  rw [foldl_renderCluster]
  simp only [List.nil_append]
  have hslice :
      ((graphemes r.string).drop
          (min start (min endp (utf8Length r.string)))).take
          (min endp (utf8Length r.string) -
            min start (min endp (utf8Length r.string))) =
        ((graphemes r.string).drop start).take (endp - start) := by
    rcases le_or_lt start (min endp (utf8Length r.string)) with hs | hs
    · rw [min_eq_left hs]
      rcases le_or_lt endp (utf8Length r.string) with he | he
      · rw [min_eq_left he]
      · rw [min_eq_right (le_of_lt he)]
        rw [List.take_of_length_le (by rw [List.length_drop]; omega),
            List.take_of_length_le (by rw [List.length_drop]; omega)]
    · rw [min_eq_right (le_of_lt hs)]
      simp only [Nat.sub_self, List.take_zero]
      rcases le_or_lt start endp with hse | hse
      · have hdrop : (graphemes r.string).drop start = [] :=
          List.drop_eq_nil_of_le (by omega)
        rw [hdrop, List.take_nil]
      · have h0 : endp - start = 0 := by omega
        rw [h0, List.take_zero]
  rw [hslice]

/-- `insert` recomputes the cached length in both branches. -/
theorem insert_len_eq (r : Row) (x : Nat) (c : Char) :
    (r.insert x c).len = (graphemes ((r.insert x c).string)).length := by
  unfold Row.insert
  split <;> rfl

/-- A member of a cluster list occurs contiguously in its flattening. -/
theorem subseg_flatten_of_mem {g : List Char} {L : List (List Char)}
    (h : g ∈ L) : ∃ u v, L.flatten = u ++ g ++ v := by
  obtain ⟨s, t, rfl⟩ := List.append_of_mem h
  exact ⟨s.flatten, t.flatten, by simp⟩

/-- A nonempty `noBreak`-chained block that occurs contiguously inside `t`
is contained in a single cluster of `t`. -/
theorem cluster_in_graphemes (g : List Char) (hne : g ≠ [])
    (hchain : List.Chain' (fun a b => noBreak a b = true) g)
    (t u v : List Char) (ht : t = u ++ g ++ v) :
    ∃ h, h ∈ graphemes t ∧ SubSeg g h := by
  subst ht
  exact chain_subseg_cluster u g v hne hchain

/-- C4 counterexample: on the line "a" with pos = len = 1 and the combining
acute accent as the inserted character, `insert 1 c` then `delete 1` does
not restore "a": the accent merges into the cluster of the `a`, the length
stays 1, and the delete is a no-op. -/
theorem c4_counterexample :
    ((Row.insert (rowFrom ['a']) 1 (Char.ofNat 0x301)).delete 1).string ≠
      ['a'] := by
  decide

/-- C4 amended: `insert pos c` followed by `delete pos` restores the
original content for every pos ∈ [0, len] whose inserted character forms a
cluster of its own, i.e. whenever the segmentation of the post-insert
content is the old clusters with `[c]` inserted at cluster index pos
(this excludes exactly the merging cases, e.g. a combining code point). -/
theorem c4_insert_delete (r : Row) (x : Nat) (c : Char)
    (hinv : r.len = (graphemes r.string).length)
    (hx : x ≤ r.len)
    (hseg : graphemes ((r.insert x c).string) =
      (graphemes r.string).take x ++ [[c]] ++ (graphemes r.string).drop x) :
    ((r.insert x c).delete x).string = r.string := by
  have hxn : x ≤ (graphemes r.string).length := hinv ▸ hx
  have htl : ((graphemes r.string).take x).length = x := by
    rw [List.length_take]; omega
  have hlen' : (r.insert x c).len = (graphemes r.string).length + 1 := by
    rw [insert_len_eq, hseg]
    simp only [List.length_append, List.length_cons, List.length_nil,
      List.length_drop, htl]
    omega
  unfold Row.delete
  rw [if_neg (by omega)]
  show ((graphemes ((r.insert x c).string)).take x).flatten ++
      ((graphemes ((r.insert x c).string)).drop (x + 1)).flatten = r.string
  rw [hseg]
  have hd : (((graphemes r.string).take x ++ [[c]]) ++
      (graphemes r.string).drop x).drop (x + 1) =
      (graphemes r.string).drop x :=
    List.drop_left' (by simp [htl])
  rw [hd]
  rw [List.append_assoc, List.take_left' htl]
  rw [← List.flatten_append, List.take_append_drop, graphemes_flatten]

/-- Witness for C4 amended: inserting 'x' into "ab" at 1 and deleting it
restores "ab". -/
theorem c4_witness :
    ((Row.insert (rowFrom ['a', 'b']) 1 'x').delete 1).string = ['a', 'b'] :=
  c4_insert_delete (rowFrom ['a', 'b']) 1 'x' (by decide) (by decide)
    (by decide)

/-- The three regional-indicator symbols used as concrete inputs. -/
def riA : Char := Char.ofNat 0x1F1E6

/-- Second regional indicator. -/
def riB : Char := Char.ofNat 0x1F1E7

/-- Third regional indicator. -/
def riC : Char := Char.ofNat 0x1F1E8

/-- C5 counterexample: the line holding the single flag cluster [RI_A RI_B]
is split by `insert 0 RI_C`: under the regional-indicator pairing rules the
inserted indicator pairs with RI_A, re-segmenting the content as
[RI_C RI_A][RI_B] — no cluster of the result contains the original cluster
[RI_A RI_B] as a contiguous block. -/
theorem c5_counterexample :
    graphemes ((rowFrom [riA, riB]).string) = [[riA, riB]] ∧
    graphemes ((Row.insert (rowFrom [riA, riB]) 0 riC).string) =
      [[riC, riA], [riB]] ∧
    ¬ ∃ h, h ∈ graphemes ((Row.insert (rowFrom [riA, riB]) 0 riC).string) ∧
        SubSeg [riA, riB] h := by
  refine ⟨by decide, by decide, ?_⟩
  intro ⟨h, hmem, u, v, heq⟩
  have hg : graphemes ((Row.insert (rowFrom [riA, riB]) 0 riC).string) =
      [[riC, riA], [riB]] := by decide
  rw [hg] at hmem
  rcases List.mem_cons.mp hmem with rfl | hmem2
  · have hlen := congrArg List.length heq
    simp only [List.length_append, List.length_cons, List.length_nil] at hlen
    have hu : u = [] := List.length_eq_zero.mp (by omega)
    have hv : v = [] := List.length_eq_zero.mp (by omega)
    subst hu; subst hv
    simp only [List.nil_append, List.append_nil] at heq
    have hca : riC = riA := (List.cons_eq_cons.mp heq).1
    exact absurd hca (by decide)
  · rcases List.mem_cons.mp hmem2 with rfl | h3
    · have hlen := congrArg List.length heq
      simp only [List.length_append, List.length_cons, List.length_nil] at hlen
      omega
    · simp at h3

/-- C5 amended: after `insert`, `delete` (given the cached-length invariant
on entry), `split` and `append`, the cached length equals the grapheme
count of the content; a nonempty `noBreak`-chained character block — in
particular a base plus combining marks — counts as length 1; and `insert`
and `delete` never split such a locally-chained cluster: every original
(for `delete`, every kept) cluster whose characters are joined by the
pairwise break-suppression rules is contained in one cluster of the
result. A regional-indicator pair is not so chained and CAN be split (see
the counterexample). -/
theorem c5_length_invariant :
    (∀ (r : Row) (x : Nat) (c : Char),
        (r.insert x c).len = (graphemes ((r.insert x c).string)).length) ∧
    (∀ (r : Row) (a : Nat), r.len = (graphemes r.string).length →
        (r.delete a).len = (graphemes ((r.delete a).string)).length) ∧
    (∀ (r : Row) (a : Nat),
        ((r.split a).1).len = (graphemes ((r.split a).1).string).length ∧
        ((r.split a).2).len = (graphemes ((r.split a).2).string).length) ∧
    (∀ (r o : Row),
        (r.append o).len = (graphemes ((r.append o).string)).length) ∧
    (∀ g : List Char, g ≠ [] →
        List.Chain' (fun a b => noBreak a b = true) g → (rowFrom g).len = 1) ∧
    (∀ (r : Row) (x : Nat) (c : Char) (g : List Char),
        g ∈ graphemes r.string →
        List.Chain' (fun a b => noBreak a b = true) g →
        ∃ h, h ∈ graphemes ((r.insert x c).string) ∧ SubSeg g h) ∧
    (∀ (r : Row) (a : Nat) (g : List Char), g ∈ graphemes r.string →
        List.Chain' (fun a b => noBreak a b = true) g →
        (g ∈ (graphemes r.string).take a ∨
         g ∈ (graphemes r.string).drop (a + 1)) →
        ∃ h, h ∈ graphemes ((r.delete a).string) ∧ SubSeg g h) := by
  refine ⟨insert_len_eq, ?_, ?_, ?_, ?_, ?_, ?_⟩
  · intro r a hinv
    unfold Row.delete
    split
    · exact hinv
    · rfl
  · intro r a
    exact ⟨rfl, rfl⟩
  · intro r o
    rfl
  · intro g hne hchain
    show (graphemes g).length = 1
    rw [graphemes_of_chain g hne hchain]
    rfl
  · intro r x c g hg hchain
    have hne := graphemes_ne_nil r.string g hg
    unfold Row.insert
    split
    · show ∃ h, h ∈ graphemes (r.string ++ [c]) ∧ SubSeg g h
      obtain ⟨u, v, huv⟩ := subseg_flatten_of_mem hg
      rw [graphemes_flatten] at huv
      exact cluster_in_graphemes g hne hchain _ u (v ++ [c])
        (by rw [huv]; simp)
    · show ∃ h, h ∈ graphemes (((graphemes r.string).take x).flatten ++ [c] ++
          ((graphemes r.string).drop x).flatten) ∧ SubSeg g h
      have hg2 : g ∈ (graphemes r.string).take x ++
          (graphemes r.string).drop x := by
        rw [List.take_append_drop]; exact hg
      rcases List.mem_append.mp hg2 with hgt | hgd
      · obtain ⟨u, v, huv⟩ := subseg_flatten_of_mem hgt
        exact cluster_in_graphemes g hne hchain _ u
          (v ++ [c] ++ ((graphemes r.string).drop x).flatten)
          (by rw [huv]; simp)
      · obtain ⟨u, v, huv⟩ := subseg_flatten_of_mem hgd
        exact cluster_in_graphemes g hne hchain _
          (((graphemes r.string).take x).flatten ++ [c] ++ u) v
          (by rw [huv]; simp)
  · intro r a g hg hchain hkeep
    have hne := graphemes_ne_nil r.string g hg
    unfold Row.delete
    split
    · exact ⟨g, hg, SubSeg.refl g⟩
    · show ∃ h, h ∈ graphemes (((graphemes r.string).take a).flatten ++
          ((graphemes r.string).drop (a + 1)).flatten) ∧ SubSeg g h
      rcases hkeep with hgt | hgd
      · obtain ⟨u, v, huv⟩ := subseg_flatten_of_mem hgt
        exact cluster_in_graphemes g hne hchain _ u
          (v ++ ((graphemes r.string).drop (a + 1)).flatten)
          (by rw [huv]; simp)
      · obtain ⟨u, v, huv⟩ := subseg_flatten_of_mem hgd
        exact cluster_in_graphemes g hne hchain _
          (((graphemes r.string).take a).flatten ++ u) v
          (by rw [huv]; simp)

/-- Witness for C5: the two-codepoint cluster "a◌́" has cached length 1. -/
theorem c5_witness : (rowFrom ['a', Char.ofNat 0x301]).len = 1 :=
  c5_length_invariant.2.2.2.2.1 ['a', Char.ofNat 0x301] (by decide)
    (List.chain'_cons.mpr ⟨by decide, by simp⟩)

end TextEdit
